import Mathlib

/-!
Shallow embedding of the hairr OS memory manager
(`src/libs/memory-manager/src/lib.rs`) and verification of its
specification claims.

Modelling conventions:
* `usize` values are modelled as `Nat`.  Rust integer overflow is a
  program error (a panic in checked builds), so the one arithmetic step a
  caller can overflow directly — `size + PAGE_SIZE - 1` in `allocate` —
  is modelled by an explicit panic branch (`Option.none`); all other
  arithmetic stays within `Nat`.
* `ProcessId(u64)` is modelled as `Nat`.
* `HashMap<K, V>` is modelled as an association list with unique keys;
  `entry(k).or_insert_with(Vec::new).push(x)` becomes `pushEntry`,
  `insert` becomes `setEntry`, `remove` becomes `eraseEntry`, and key
  iteration order is modelled as insertion order (the Rust iteration
  order is unspecified, and no claim depends on it).
* `Vec<T>` is modelled as `List T`; `Vec::remove(0)` repeated `n` times
  becomes `take`/`drop`, with a panic branch for removal from an empty
  vector.
* Fallible operations return `Except String` exactly as the Rust code
  returns `Result<_, String>`; operations that can panic are additionally
  wrapped in `Option` (`none` = panic).
* Every operation returns the post-call manager state alongside its
  result, so that the state visible after an early `return Err(..)` is
  part of the model.
-/

namespace HairrMM

/-- Memory page size (4KB), `PAGE_SIZE` in the source. -/
def PAGE_SIZE : Nat := 4096

/-- `MemoryRegion { start, size }` from the source. -/
structure MemoryRegion where
  start : Nat
  size : Nat
deriving DecidableEq

/-- `MemoryRegion::end` from the source. -/
def MemoryRegion.endAddr (r : MemoryRegion) : Nat := r.start + r.size

/-- `MemoryRegion::contains` from the source. -/
def MemoryRegion.containsAddr (r : MemoryRegion) (addr : Nat) : Bool :=
  decide (addr ≥ r.start ∧ addr < r.endAddr)

/-- `MemoryProtection` from the source. -/
structure MemoryProtection where
  readable : Bool
  writable : Bool
  executable : Bool
deriving DecidableEq

/-- `MemoryProtection::read_write` from the source. -/
def MemoryProtection.read_write : MemoryProtection :=
  { readable := true, writable := true, executable := false }

/-- `VirtualMapping` from the source. -/
structure VirtualMapping where
  virtual_addr : Nat
  physical_addr : Nat
  size : Nat
  protection : MemoryProtection
deriving DecidableEq

/-- Association-list lookup, modelling `HashMap::get`. -/
def lookupList {α : Type} (k : Nat) : List (Nat × α) → Option α
  | [] => none
  | (k', v) :: rest => if k' = k then some v else lookupList k rest

/-- Association-list insert-or-replace, modelling `HashMap::insert`. -/
def setEntry {α : Type} (k : Nat) (v : α) : List (Nat × α) → List (Nat × α)
  | [] => [(k, v)]
  | (k', v') :: rest =>
    if k' = k then (k', v) :: rest else (k', v') :: setEntry k v rest

/-- Association-list removal, modelling `HashMap::remove`. -/
def eraseEntry {α : Type} (k : Nat) : List (Nat × α) → List (Nat × α)
  | [] => []
  | (k', v') :: rest => if k' = k then rest else (k', v') :: eraseEntry k rest

/-- Modelling `map.entry(k).or_insert_with(Vec::new).push(x)`. -/
def pushEntry {α : Type} (k : Nat) (x : α) : List (Nat × List α) → List (Nat × List α)
  | [] => [(k, [x])]
  | (k', l) :: rest =>
    if k' = k then (k', l ++ [x]) :: rest else (k', l) :: pushEntry k x rest

/-- Modelling `regions.iter().position(|r| *r == region)` followed by
`regions.remove(pos)`: removes the first exact match, `none` if absent. -/
def removeFirst (r : MemoryRegion) : List MemoryRegion → Option (List MemoryRegion)
  | [] => none
  | x :: xs => if x = r then some xs else (removeFirst r xs).map (fun l => x :: l)

/-- The page addresses `region.start + i * PAGE_SIZE` for
`i in 0..region.size / PAGE_SIZE`, as iterated by `free` and `free_all`. -/
def regionPages (r : MemoryRegion) : List Nat :=
  (List.range (r.size / PAGE_SIZE)).map (fun i => r.start + i * PAGE_SIZE)

/-- Sum of the sizes of a list of regions. -/
def sumSizes (l : List MemoryRegion) : Nat := (l.map (fun r => r.size)).sum

/-- Sum of the sizes of all regions recorded in a region ledger,
over all processes. -/
def regionsSizeSum (al : List (Nat × List MemoryRegion)) : Nat :=
  (al.map (fun e => sumSizes e.2)).sum

/-- `MemoryManager` from the source. The `Arc<Mutex<..>>` wrappers carry
no sequential semantics and are dropped. -/
structure MemoryManager where
  total_memory : Nat
  free_memory : Nat
  allocated_regions : List (Nat × List MemoryRegion)
  virtual_mappings : List (Nat × List VirtualMapping)
  free_pages : List Nat
  used_pages : List (Nat × Nat)

/-- `MemoryManager::new` from the source. -/
def MemoryManager.new (total_memory_mb : Nat) : MemoryManager :=
  let total_memory := total_memory_mb * 1024 * 1024
  let num_pages := total_memory / PAGE_SIZE
  { total_memory := total_memory
    free_memory := total_memory
    allocated_regions := []
    virtual_mappings := []
    free_pages := (List.range num_pages).map (fun i => i * PAGE_SIZE)
    used_pages := [] }

/-- `MemoryManager::allocate` from the source.  `none` models a panic:
either `usize` overflow in `size + PAGE_SIZE - 1`, or `Vec::remove(0)` on
an empty vector (both unreachable when the function returns normally).
The source removes one page, then `num_pages - 1` more; under the
`free_pages.len() < num_pages` guard this is `take`/`drop` of
`num_pages` pages from the front. -/
def MemoryManager.allocate (m : MemoryManager) (process_id : Nat) (size : Nat) :
    Option (Except String MemoryRegion × MemoryManager) :=
  if size = 0 then
    some (Except.error "Cannot allocate zero bytes", m)
  else if 2 ^ 64 ≤ size + (PAGE_SIZE - 1) then
    none
  else
    let alignedSize := (size + PAGE_SIZE - 1) &&& (2 ^ 64 - PAGE_SIZE)
    let numPages := alignedSize / PAGE_SIZE
    if m.free_memory < alignedSize then
      some (Except.error "Out of memory", m)
    else if m.free_pages.length < numPages then
      some (Except.error "Out of memory pages", m)
    else
      match m.free_pages with
      | [] => none
      | start_addr :: rest =>
        let taken := start_addr :: rest.take (numPages - 1)
        let remaining := rest.drop (numPages - 1)
        let used' := taken.foldl (fun u a => setEntry a process_id u) m.used_pages
        let region : MemoryRegion := { start := start_addr, size := alignedSize }
        some (Except.ok region,
          { m with
            free_memory := m.free_memory - alignedSize
            free_pages := remaining
            used_pages := used'
            allocated_regions := pushEntry process_id region m.allocated_regions })

/-- `MemoryManager::free` from the source. -/
def MemoryManager.free (m : MemoryManager) (process_id : Nat) (region : MemoryRegion) :
    Except String Unit × MemoryManager :=
  match lookupList process_id m.allocated_regions with
  | none => (Except.error "Process not found", m)
  | some regions =>
    match removeFirst region regions with
    | none => (Except.error "Region not found", m)
    | some regions' =>
      let pages := regionPages region
      (Except.ok (),
        { m with
          allocated_regions := setEntry process_id regions' m.allocated_regions
          free_pages := m.free_pages ++ pages
          used_pages := pages.foldl (fun u a => eraseEntry a u) m.used_pages
          free_memory := m.free_memory + region.size })

/-- `MemoryManager::free_all` from the source. -/
def MemoryManager.free_all (m : MemoryManager) (process_id : Nat) :
    Except String Unit × MemoryManager :=
  match lookupList process_id m.allocated_regions with
  | none => (Except.error "Process not found", m)
  | some regions =>
    let pages := (regions.map regionPages).flatten
    (Except.ok (),
      { m with
        allocated_regions := eraseEntry process_id m.allocated_regions
        free_pages := m.free_pages ++ pages
        used_pages := pages.foldl (fun u a => eraseEntry a u) m.used_pages
        free_memory := m.free_memory + sumSizes regions
        virtual_mappings := eraseEntry process_id m.virtual_mappings })

/-- `MemoryManager::map_virtual` from the source (always returns `Ok`). -/
def MemoryManager.map_virtual (m : MemoryManager) (process_id virtual_addr physical_addr size : Nat)
    (protection : MemoryProtection) : Except String Unit × MemoryManager :=
  let mapping : VirtualMapping :=
    { virtual_addr := virtual_addr, physical_addr := physical_addr
      size := size, protection := protection }
  (Except.ok (), { m with virtual_mappings := pushEntry process_id mapping m.virtual_mappings })

/-- The scan loop inside `MemoryManager::translate_address`.  The `&&`
in the source short-circuits, so `mapping.virtual_addr + mapping.size` is
evaluated only once `virtual_addr >= mapping.virtual_addr` holds; that
sum, and `mapping.physical_addr + offset` in the hit case, are `usize`
additions that panic on overflow (outer `none` = panic).  Such mappings
are creatable, because `map_virtual` validates nothing. -/
def findTranslate (virtual_addr : Nat) : List VirtualMapping → Option (Option Nat)
  | [] => some none
  | mp :: rest =>
    if virtual_addr ≥ mp.virtual_addr then
      if 2 ^ 64 ≤ mp.virtual_addr + mp.size then none
      else if virtual_addr < mp.virtual_addr + mp.size then
        if 2 ^ 64 ≤ mp.physical_addr + (virtual_addr - mp.virtual_addr) then none
        else some (some (mp.physical_addr + (virtual_addr - mp.virtual_addr)))
      else findTranslate virtual_addr rest
    else findTranslate virtual_addr rest

/-- `MemoryManager::translate_address` from the source; `none` models a
panic from `usize` overflow inside the scan, `some r` a normal return
with result `r`. -/
def MemoryManager.translate_address (m : MemoryManager) (process_id virtual_addr : Nat) :
    Option (Option Nat) :=
  match lookupList process_id m.virtual_mappings with
  | none => some none
  | some mappings => findTranslate virtual_addr mappings

/-- `MemoryManager::list_processes` from the source (keys of
`allocated_regions`, in insertion order in the model). -/
def MemoryManager.list_processes (m : MemoryManager) : List Nat :=
  m.allocated_regions.map (fun e => e.1)

/-- `MemoryManager::process_memory` from the source. -/
def MemoryManager.process_memory (m : MemoryManager) (process_id : Nat) : Nat :=
  match lookupList process_id m.allocated_regions with
  | none => 0
  | some regions => sumSizes regions

/-- Specification-side definition for claim C5, following the words of
the spec: scan the mappings of the process in insertion order and return the
physical address of the *first* mapping whose half-open range contains
the virtual address, with the byte offset added. -/
def specTranslate (m : MemoryManager) (process_id virtual_addr : Nat) : Option Nat :=
  match lookupList process_id m.virtual_mappings with
  | none => none
  | some mappings =>
    (mappings.find? (fun mp =>
        decide (mp.virtual_addr ≤ virtual_addr ∧ virtual_addr < mp.virtual_addr + mp.size))).map
      (fun mp => mp.physical_addr + (virtual_addr - mp.virtual_addr))

/-- Specification-side predicate for claim C7: the process currently
owns at least one region. -/
def ownsRegion (m : MemoryManager) (process_id : Nat) : Bool :=
  match lookupList process_id m.allocated_regions with
  | some (_ :: _) => true
  | _ => false

/-- Whether an `allocate` outcome is a normal successful return. -/
def allocOk (o : Option (Except String MemoryRegion × MemoryManager)) : Bool :=
  match o with
  | some (Except.ok _, _) => true
  | _ => false

/-- Post-state of an `allocate` call (the input state if the call
panicked; panics are excluded by hypotheses wherever this is used). -/
def allocState (m : MemoryManager) (process_id size : Nat) : MemoryManager :=
  match m.allocate process_id size with
  | some (_, m') => m'
  | none => m

/-- One manager operation, for describing call sequences. -/
inductive Op where
  | alloc (process_id size : Nat)
  | free (process_id : Nat) (r : MemoryRegion)
  | freeAll (process_id : Nat)
  | mapVirt (process_id virtual_addr physical_addr size : Nat) (prot : MemoryProtection)

/-- Run one operation, keeping only successful outcomes. -/
def runOp (m : MemoryManager) : Op → Option MemoryManager
  | Op.alloc pid size =>
    match m.allocate pid size with
    | some (Except.ok _, m') => some m'
    | _ => none
  | Op.free pid r =>
    match m.free pid r with
    | (Except.ok _, m') => some m'
    | _ => none
  | Op.freeAll pid =>
    match m.free_all pid with
    | (Except.ok _, m') => some m'
    | _ => none
  | Op.mapVirt pid va pa size prot => some (m.map_virtual pid va pa size prot).2

/-- Run a sequence of operations, keeping only successful outcomes. -/
def runOps (m : MemoryManager) : List Op → Option MemoryManager
  | [] => some m
  | op :: ops =>
    match runOp m op with
    | none => none
    | some m' => runOps m' ops

/-- States reachable from a newly constructed manager by any sequence of
calls (successful or failed; failed calls keep the returned state). -/
inductive Reachable : MemoryManager → Prop where
  | new (mb : Nat) : Reachable (MemoryManager.new mb)
  | alloc {m : MemoryManager} {pid size : Nat}
      {res : Except String MemoryRegion × MemoryManager} :
      Reachable m → m.allocate pid size = some res → Reachable res.2
  | free {m : MemoryManager} {pid : Nat} {r : MemoryRegion} :
      Reachable m → Reachable (m.free pid r).2
  | freeAll {m : MemoryManager} {pid : Nat} :
      Reachable m → Reachable (m.free_all pid).2
  | mapVirt {m : MemoryManager} {pid va pa size : Nat} {prot : MemoryProtection} :
      Reachable m → Reachable (m.map_virtual pid va pa size prot).2

/-- The inductive state invariant of the manager. -/
structure Inv (m : MemoryManager) : Prop where
  sum_eq : m.free_memory + regionsSizeSum m.allocated_regions = m.total_memory
  free_eq : m.free_memory = PAGE_SIZE * m.free_pages.length
  pages_aligned : ∀ a ∈ m.free_pages, a % PAGE_SIZE = 0
  regions_ok : ∀ pr ∈ m.allocated_regions, ∀ r ∈ pr.2,
    r.start % PAGE_SIZE = 0 ∧ r.size % PAGE_SIZE = 0

/-! ### Arithmetic helper lemmas -/

theorem PAGE_SIZE_eq : PAGE_SIZE = 4096 := rfl

/-- `testBit` through division by a power of two. -/
theorem testBit_div_pow (x n j : Nat) : (x / 2 ^ n).testBit j = x.testBit (n + j) := by
  rw [← Nat.shiftRight_eq_div_pow, Nat.testBit_shiftRight]

/-- Masking off the low 12 bits of a 64-bit value rounds it down to a
multiple of `2 ^ 12`. -/
theorem land_high_mask (x : Nat) (hx : x < 2 ^ 64) :
    x &&& (2 ^ 64 - 2 ^ 12) = x / 2 ^ 12 * 2 ^ 12 := by
  have hmask : (2 ^ 64 - 2 ^ 12 : Nat) = 2 ^ 12 * (2 ^ 52 - 1) := by norm_num
  apply Nat.eq_of_testBit_eq
  intro j
  rw [Nat.testBit_and, hmask, Nat.testBit_mul_pow_two,
    Nat.mul_comm (x / 2 ^ 12) (2 ^ 12), Nat.testBit_mul_pow_two, testBit_div_pow]
  by_cases h12 : 12 ≤ j
  · have hj : 12 + (j - 12) = j := by omega
    rw [hj, Nat.testBit_two_pow_sub_one]
    by_cases h64 : j < 64
    · have hlt : j - 12 < 52 := by omega
      simp [h12, hlt, Bool.and_comm]
    · have hxj : x.testBit j = false :=
        Nat.testBit_lt_two_pow
          (lt_of_lt_of_le hx (Nat.pow_le_pow_right (by norm_num) (by omega)))
      simp [hxj]
  · simp [h12]

/-- Rounding up to the next multiple of the page size, as a `Nat`
function (`(size + PAGE_SIZE - 1) / PAGE_SIZE * PAGE_SIZE`). -/
def alignUp (size : Nat) : Nat := (size + PAGE_SIZE - 1) / PAGE_SIZE * PAGE_SIZE

/-- Under the no-overflow guard of `allocate`, the bit mask of the source
`(size + PAGE_SIZE - 1) & !(PAGE_SIZE - 1)` equals `alignUp size`. -/
theorem alignedSize_eq {size : Nat} (h : size + (PAGE_SIZE - 1) < 2 ^ 64) :
    (size + PAGE_SIZE - 1) &&& (2 ^ 64 - PAGE_SIZE) = alignUp size := by
  have h1 : size + PAGE_SIZE - 1 = size + (PAGE_SIZE - 1) := by
    rw [PAGE_SIZE_eq]; omega
  have h2 : (2 ^ 64 - PAGE_SIZE : Nat) = 2 ^ 64 - 2 ^ 12 := by norm_num [PAGE_SIZE_eq]
  rw [alignUp, h1, h2, land_high_mask _ h]
  norm_num [PAGE_SIZE_eq]

theorem alignUp_mod (size : Nat) : alignUp size % PAGE_SIZE = 0 := by
  rw [alignUp]; exact Nat.mul_mod_left _ _

theorem le_alignUp (size : Nat) : size ≤ alignUp size := by
  rw [alignUp, PAGE_SIZE_eq]; omega

theorem alignUp_le {size k : Nat} (hk : k % PAGE_SIZE = 0) (hsk : size ≤ k) :
    alignUp size ≤ k := by
  rw [alignUp, PAGE_SIZE_eq] at *; omega

theorem alignUp_pos {size : Nat} (h : 0 < size) : PAGE_SIZE ≤ alignUp size := by
  rw [alignUp, PAGE_SIZE_eq] at *; omega

theorem alignUp_div_mul (size : Nat) : alignUp size / PAGE_SIZE * PAGE_SIZE = alignUp size := by
  rw [alignUp, PAGE_SIZE_eq]; omega

theorem alignUp_pages_pos {size : Nat} (h : 0 < size) : 0 < alignUp size / PAGE_SIZE := by
  have h1 := alignUp_pos h
  rw [PAGE_SIZE_eq] at *; omega

/-! ### Association-list and region-sum helper lemmas -/

theorem lookup_mem {α : Type} {k : Nat} {v : α} :
    ∀ {al : List (Nat × α)}, lookupList k al = some v → (k, v) ∈ al := by
  intro al
  induction al with
  | nil => intro h; cases h
  | cons e rest ih =>
    intro h
    cases e with
    | mk k' v' =>
      rw [lookupList] at h
      by_cases hk : k' = k
      · rw [if_pos hk] at h
        cases h
        subst hk
        exact List.mem_cons_self _ _
      · rw [if_neg hk] at h
        exact List.mem_cons_of_mem _ (ih h)

theorem sumSizes_cons (r : MemoryRegion) (l : List MemoryRegion) :
    sumSizes (r :: l) = r.size + sumSizes l := by
  simp [sumSizes]

theorem regionsSizeSum_cons (e : Nat × List MemoryRegion) (al : List (Nat × List MemoryRegion)) :
    regionsSizeSum (e :: al) = sumSizes e.2 + regionsSizeSum al := by
  simp [regionsSizeSum]

theorem regionsSizeSum_pushEntry (k : Nat) (r : MemoryRegion) :
    ∀ al : List (Nat × List MemoryRegion),
      regionsSizeSum (pushEntry k r al) = regionsSizeSum al + r.size := by
  intro al
  induction al with
  | nil => simp [pushEntry, regionsSizeSum, sumSizes]
  | cons e rest ih =>
    cases e with
    | mk k' l =>
      rw [pushEntry]
      by_cases hk : k' = k
      · rw [if_pos hk, regionsSizeSum_cons, regionsSizeSum_cons]
        simp [sumSizes]
        omega
      · rw [if_neg hk, regionsSizeSum_cons, regionsSizeSum_cons, ih]
        omega

theorem regionsSizeSum_setEntry {k : Nat} {l : List MemoryRegion}
    (v : List MemoryRegion) :
    ∀ {al : List (Nat × List MemoryRegion)}, lookupList k al = some l →
      regionsSizeSum (setEntry k v al) + sumSizes l = regionsSizeSum al + sumSizes v := by
  intro al
  induction al with
  | nil => intro h; cases h
  | cons e rest ih =>
    cases e with
    | mk k' l' =>
      intro h
      rw [lookupList] at h
      rw [setEntry]
      by_cases hk : k' = k
      · rw [if_pos hk] at h
        cases h
        rw [if_pos hk, regionsSizeSum_cons, regionsSizeSum_cons]
        dsimp only
        omega
      · rw [if_neg hk] at h
        rw [if_neg hk, regionsSizeSum_cons, regionsSizeSum_cons]
        have := ih h
        omega

theorem regionsSizeSum_eraseEntry {k : Nat} {l : List MemoryRegion} :
    ∀ {al : List (Nat × List MemoryRegion)}, lookupList k al = some l →
      regionsSizeSum (eraseEntry k al) + sumSizes l = regionsSizeSum al := by
  intro al
  induction al with
  | nil => intro h; cases h
  | cons e rest ih =>
    cases e with
    | mk k' l' =>
      intro h
      rw [lookupList] at h
      rw [eraseEntry]
      by_cases hk : k' = k
      · rw [if_pos hk] at h
        cases h
        rw [if_pos hk, regionsSizeSum_cons]
        dsimp only
        omega
      · rw [if_neg hk] at h
        rw [if_neg hk, regionsSizeSum_cons, regionsSizeSum_cons]
        have := ih h
        omega

theorem removeFirst_sum {r : MemoryRegion} :
    ∀ {l l' : List MemoryRegion}, removeFirst r l = some l' →
      sumSizes l' + r.size = sumSizes l := by
  intro l
  induction l with
  | nil => intro l' h; cases h
  | cons x xs ih =>
    intro l' h
    rw [removeFirst] at h
    by_cases hx : x = r
    · rw [if_pos hx] at h
      cases h
      rw [sumSizes_cons, hx]
      omega
    · rw [if_neg hx] at h
      cases hrec : removeFirst r xs with
      | none => rw [hrec] at h; cases h
      | some l'' =>
        rw [hrec] at h
        cases h
        rw [sumSizes_cons, sumSizes_cons]
        have := ih hrec
        omega

theorem removeFirst_subset {r : MemoryRegion} :
    ∀ {l l' : List MemoryRegion}, removeFirst r l = some l' →
      ∀ x ∈ l', x ∈ l := by
  intro l
  induction l with
  | nil => intro l' h; cases h
  | cons y xs ih =>
    intro l' h x hx
    rw [removeFirst] at h
    by_cases hy : y = r
    · rw [if_pos hy] at h
      cases h
      exact List.mem_cons_of_mem _ hx
    · rw [if_neg hy] at h
      cases hrec : removeFirst r xs with
      | none => rw [hrec] at h; cases h
      | some l'' =>
        rw [hrec] at h
        cases h
        cases hx with
        | head => exact List.mem_cons_self _ _
        | tail _ hmem => exact List.mem_cons_of_mem _ (ih hrec _ hmem)

theorem removeFirst_mem {r : MemoryRegion} :
    ∀ {l l' : List MemoryRegion}, removeFirst r l = some l' → r ∈ l := by
  intro l
  induction l with
  | nil => intro l' h; cases h
  | cons y xs ih =>
    intro l' h
    rw [removeFirst] at h
    by_cases hy : y = r
    · rw [hy]; exact List.mem_cons_self _ _
    · rw [if_neg hy] at h
      cases hrec : removeFirst r xs with
      | none => rw [hrec] at h; cases h
      | some l'' => exact List.mem_cons_of_mem _ (ih hrec)

/-- All region values in a ledger satisfy a predicate. -/
def AllVals {α : Type} (P : α → Prop) (al : List (Nat × List α)) : Prop :=
  ∀ pr ∈ al, ∀ x ∈ pr.2, P x

theorem AllVals_pushEntry {α : Type} {P : α → Prop} {k : Nat} {x : α}
    (hx : P x) : ∀ {al : List (Nat × List α)}, AllVals P al → AllVals P (pushEntry k x al) := by
  intro al
  induction al with
  | nil =>
    intro _ pr hpr y hy
    rw [pushEntry] at hpr
    cases hpr with
    | head =>
      cases hy with
      | head => exact hx
      | tail _ hmem => cases hmem
    | tail _ hmem => cases hmem
  | cons e rest ih =>
    intro hall pr hpr y hy
    cases e with
    | mk k' l =>
      rw [pushEntry] at hpr
      by_cases hk : k' = k
      · rw [if_pos hk] at hpr
        cases hpr with
        | head =>
          rcases List.mem_append.mp hy with hmem | hmem
          · exact hall (k', l) (List.mem_cons_self _ _) y hmem
          · cases hmem with
            | head => exact hx
            | tail _ hmem2 => cases hmem2
        | tail _ hmem =>
          exact hall pr (List.mem_cons_of_mem _ hmem) y hy
      · rw [if_neg hk] at hpr
        cases hpr with
        | head => exact hall (k', l) (List.mem_cons_self _ _) y hy
        | tail _ hmem =>
          exact ih (fun pr2 hpr2 => hall pr2 (List.mem_cons_of_mem _ hpr2)) pr hmem y hy

theorem AllVals_setEntry {α : Type} {P : α → Prop} {k : Nat} {v : List α}
    (hv : ∀ y ∈ v, P y) :
    ∀ {al : List (Nat × List α)}, AllVals P al → AllVals P (setEntry k v al) := by
  intro al
  induction al with
  | nil =>
    intro _ pr hpr y hy
    rw [setEntry] at hpr
    cases hpr with
    | head => exact hv y hy
    | tail _ hmem => cases hmem
  | cons e rest ih =>
    intro hall pr hpr y hy
    cases e with
    | mk k' l =>
      rw [setEntry] at hpr
      by_cases hk : k' = k
      · rw [if_pos hk] at hpr
        cases hpr with
        | head => exact hv y hy
        | tail _ hmem => exact hall pr (List.mem_cons_of_mem _ hmem) y hy
      · rw [if_neg hk] at hpr
        cases hpr with
        | head => exact hall (k', l) (List.mem_cons_self _ _) y hy
        | tail _ hmem =>
          exact ih (fun pr2 hpr2 => hall pr2 (List.mem_cons_of_mem _ hpr2)) pr hmem y hy

theorem AllVals_eraseEntry {α : Type} {P : α → Prop} {k : Nat} :
    ∀ {al : List (Nat × List α)}, AllVals P al → AllVals P (eraseEntry k al) := by
  intro al
  induction al with
  | nil => intro h; exact h
  | cons e rest ih =>
    intro hall pr hpr y hy
    cases e with
    | mk k' l =>
      rw [eraseEntry] at hpr
      by_cases hk : k' = k
      · rw [if_pos hk] at hpr
        exact hall pr (List.mem_cons_of_mem _ hpr) y hy
      · rw [if_neg hk] at hpr
        cases hpr with
        | head => exact hall (k', l) (List.mem_cons_self _ _) y hy
        | tail _ hmem =>
          exact ih (fun pr2 hpr2 => hall pr2 (List.mem_cons_of_mem _ hpr2)) pr hmem y hy

theorem regionPages_length (r : MemoryRegion) :
    (regionPages r).length = r.size / PAGE_SIZE := by
  simp [regionPages]

theorem regionPages_aligned {r : MemoryRegion} (h : r.start % PAGE_SIZE = 0) :
    ∀ a ∈ regionPages r, a % PAGE_SIZE = 0 := by
  intro a ha
  rw [regionPages] at ha
  rcases List.mem_map.mp ha with ⟨i, _, rfl⟩
  rw [PAGE_SIZE_eq] at *
  omega

theorem regionPages_size {r : MemoryRegion} (h : r.size % PAGE_SIZE = 0) :
    PAGE_SIZE * (regionPages r).length = r.size := by
  rw [regionPages_length, PAGE_SIZE_eq] at *
  omega

theorem flatten_pages_size {regions : List MemoryRegion}
    (h : ∀ r ∈ regions, r.size % PAGE_SIZE = 0) :
    PAGE_SIZE * ((regions.map regionPages).flatten).length = sumSizes regions := by
  induction regions with
  | nil => simp [sumSizes]
  | cons r rs ih =>
    rw [List.map_cons, List.flatten_cons, List.length_append, sumSizes_cons,
      Nat.mul_add, regionPages_size (h r (List.mem_cons_self _ _)),
      ih (fun r2 hr2 => h r2 (List.mem_cons_of_mem _ hr2))]

theorem flatten_pages_aligned {regions : List MemoryRegion}
    (h : ∀ r ∈ regions, r.start % PAGE_SIZE = 0) :
    ∀ a ∈ (regions.map regionPages).flatten, a % PAGE_SIZE = 0 := by
  intro a ha
  rcases List.mem_flatten.mp ha with ⟨l, hl, hal⟩
  rcases List.mem_map.mp hl with ⟨r, hr, rfl⟩
  exact regionPages_aligned (h r hr) a hal

theorem mem_keys_iff_lookup {α : Type} (k : Nat) :
    ∀ (al : List (Nat × α)), k ∈ al.map (fun e => e.1) ↔ (lookupList k al).isSome := by
  intro al
  induction al with
  | nil => simp [lookupList]
  | cons e rest ih =>
    cases e with
    | mk k' v =>
      rw [List.map_cons, List.mem_cons, lookupList]
      by_cases hk : k' = k
      · simp [hk]
      · rw [if_neg hk]
        simp only [ih]
        constructor
        · intro h
          cases h with
          | inl h' => exact absurd h'.symm hk
          | inr h' => exact h'
        · intro h
          exact Or.inr h

/-! ### Characterization of the operations -/

/-- What a successful `allocate` did: the size of the returned region is the
rounded-up request, its start is the first free page, the first
`r.size / PAGE_SIZE` free pages were taken, and the counters moved by
exactly the region size. -/
theorem allocate_ok_spec {m : MemoryManager} {pid size : Nat}
    {res : Except String MemoryRegion × MemoryManager}
    (heq : m.allocate pid size = some res) {r : MemoryRegion}
    (hok : res.1 = Except.ok r) :
    0 < size ∧ size + (PAGE_SIZE - 1) < 2 ^ 64 ∧
    r.size = alignUp size ∧
    r.size ≤ m.free_memory ∧
    r.size / PAGE_SIZE ≤ m.free_pages.length ∧
    m.free_pages.head? = some r.start ∧
    res.2 = { m with
      free_memory := m.free_memory - r.size
      free_pages := m.free_pages.drop (r.size / PAGE_SIZE)
      used_pages := (m.free_pages.take (r.size / PAGE_SIZE)).foldl
        (fun u a => setEntry a pid u) m.used_pages
      allocated_regions := pushEntry pid r m.allocated_regions } := by
  simp only [MemoryManager.allocate] at heq
  split at heq
  · cases heq; simp at hok
  · rename_i hs
    split at heq
    · cases heq
    · rename_i hov
      split at heq
      · cases heq; simp at hok
      · rename_i hfm
        split at heq
        · cases heq; simp at hok
        · rename_i hlen
          split at heq
          · cases heq
          · rename_i start_addr rest hfp
            cases heq
            dsimp only at hok
            cases hok
            dsimp only
            have hov' : size + (PAGE_SIZE - 1) < 2 ^ 64 := by omega
            have halign : (size + PAGE_SIZE - 1) &&& (2 ^ 64 - PAGE_SIZE) = alignUp size :=
              alignedSize_eq hov'
            rw [halign] at hfm hlen ⊢
            have hnp : 0 < alignUp size / PAGE_SIZE :=
              alignUp_pages_pos (Nat.pos_of_ne_zero hs)
            have hn : alignUp size / PAGE_SIZE = (alignUp size / PAGE_SIZE - 1) + 1 := by
              omega
            refine ⟨Nat.pos_of_ne_zero hs, hov', rfl, by omega, ?_, ?_, ?_⟩
            · exact Nat.le_of_not_lt hlen
            · rw [hfp]; rfl
            · rw [hfp, hn, List.drop_succ_cons, List.take_succ_cons, Nat.add_sub_cancel]

/-- A failed `allocate` leaves the state unchanged. -/
theorem allocate_error_state {m : MemoryManager} {pid size : Nat}
    {res : Except String MemoryRegion × MemoryManager}
    (heq : m.allocate pid size = some res) {e : String}
    (herr : res.1 = Except.error e) : res.2 = m := by
  simp only [MemoryManager.allocate] at heq
  split at heq
  · cases heq; rfl
  · split at heq
    · cases heq
    · split at heq
      · cases heq; rfl
      · split at heq
        · cases heq; rfl
        · split at heq
          · cases heq
          · cases heq; simp at herr

/-- A failed `free` leaves the state unchanged. -/
theorem free_error_state {m : MemoryManager} {pid : Nat} {r : MemoryRegion} {e : String}
    (herr : (m.free pid r).1 = Except.error e) : (m.free pid r).2 = m := by
  unfold MemoryManager.free at *
  split at herr
  · rfl
  · split at herr
    · rfl
    · simp at herr

/-- A failed `free_all` leaves the state unchanged. -/
theorem free_all_error_state {m : MemoryManager} {pid : Nat} {e : String}
    (herr : (m.free_all pid).1 = Except.error e) : (m.free_all pid).2 = m := by
  unfold MemoryManager.free_all at *
  split at herr
  · rfl
  · simp at herr

/-! ### Invariant preservation -/

theorem inv_new (mb : Nat) : Inv (MemoryManager.new mb) := by
  constructor
  · simp [MemoryManager.new, regionsSizeSum]
  · simp only [MemoryManager.new, List.length_map, List.length_range]
    rw [PAGE_SIZE_eq]
    omega
  · intro a ha
    simp only [MemoryManager.new] at ha
    rcases List.mem_map.mp ha with ⟨i, _, rfl⟩
    rw [PAGE_SIZE_eq]
    omega
  · intro pr hpr
    simp [MemoryManager.new] at hpr

theorem inv_allocate {m : MemoryManager} {pid size : Nat}
    {res : Except String MemoryRegion × MemoryManager}
    (hInv : Inv m) (heq : m.allocate pid size = some res) : Inv res.2 := by
  cases hres : res.1 with
  | error e => rw [allocate_error_state heq hres]; exact hInv
  | ok r =>
    obtain ⟨hpos, hov, hsz, hfm, hlen, hhd, hst⟩ := allocate_ok_spec heq hres
    have hsize_mod : r.size % PAGE_SIZE = 0 := by rw [hsz]; exact alignUp_mod size
    have hstart_mem : r.start ∈ m.free_pages := by
      cases hl : m.free_pages with
      | nil => rw [hl] at hhd; cases hhd
      | cons x xs =>
        rw [hl] at hhd
        cases hhd
        exact List.mem_cons_self _ _
    have hstart_mod : r.start % PAGE_SIZE = 0 := hInv.pages_aligned r.start hstart_mem
    have hmul : r.size / PAGE_SIZE * PAGE_SIZE = r.size := by
      rw [hsz]; exact alignUp_div_mul size
    rw [hst]
    constructor
    · dsimp only
      rw [regionsSizeSum_pushEntry]
      have := hInv.sum_eq
      omega
    · dsimp only
      rw [List.length_drop]
      have := hInv.free_eq
      rw [PAGE_SIZE_eq] at *
      omega
    · intro a ha
      exact hInv.pages_aligned a (List.mem_of_mem_drop ha)
    · exact AllVals_pushEntry ⟨hstart_mod, hsize_mod⟩ hInv.regions_ok

theorem inv_free {m : MemoryManager} {pid : Nat} {r : MemoryRegion}
    (hInv : Inv m) : Inv (m.free pid r).2 := by
  unfold MemoryManager.free
  split
  · exact hInv
  · rename_i regions hlk
    split
    · exact hInv
    · rename_i regions' hrm
      have hr_ok := hInv.regions_ok _ (lookup_mem hlk) r (removeFirst_mem hrm)
      have hsum := regionsSizeSum_setEntry (k := pid) regions' hlk
      have hrm_sum := removeFirst_sum hrm
      have hpg := regionPages_size hr_ok.2
      constructor
      · dsimp only
        have := hInv.sum_eq
        omega
      · dsimp only
        rw [List.length_append]
        have := hInv.free_eq
        rw [PAGE_SIZE_eq] at *
        omega
      · intro a ha
        rcases List.mem_append.mp ha with h | h
        · exact hInv.pages_aligned a h
        · exact regionPages_aligned hr_ok.1 a h
      · exact AllVals_setEntry
          (fun y hy => hInv.regions_ok _ (lookup_mem hlk) y (removeFirst_subset hrm y hy))
          hInv.regions_ok

theorem inv_free_all {m : MemoryManager} {pid : Nat}
    (hInv : Inv m) : Inv (m.free_all pid).2 := by
  unfold MemoryManager.free_all
  split
  · exact hInv
  · rename_i regions hlk
    have hall : ∀ r' ∈ regions, r'.start % PAGE_SIZE = 0 ∧ r'.size % PAGE_SIZE = 0 :=
      fun r' hr' => hInv.regions_ok _ (lookup_mem hlk) r' hr'
    have hsum := regionsSizeSum_eraseEntry hlk
    have hpg := flatten_pages_size (fun r hr => (hall r hr).2)
    constructor
    · dsimp only
      have := hInv.sum_eq
      omega
    · dsimp only
      rw [List.length_append]
      have := hInv.free_eq
      rw [PAGE_SIZE_eq] at *
      omega
    · intro a ha
      rcases List.mem_append.mp ha with h | h
      · exact hInv.pages_aligned a h
      · exact flatten_pages_aligned (fun r hr => (hall r hr).1) a h
    · exact AllVals_eraseEntry hInv.regions_ok

theorem inv_map_virtual {m : MemoryManager} {pid va pa size : Nat} {prot : MemoryProtection}
    (hInv : Inv m) : Inv (m.map_virtual pid va pa size prot).2 :=
  ⟨hInv.sum_eq, hInv.free_eq, hInv.pages_aligned, hInv.regions_ok⟩

/-- Every reachable manager state satisfies the invariant. -/
theorem reachable_inv {m : MemoryManager} (h : Reachable m) : Inv m := by
  induction h with
  | new mb => exact inv_new mb
  | alloc _ heq ih => exact inv_allocate ih heq
  | free _ ih => exact inv_free ih
  | freeAll _ ih => exact inv_free_all ih
  | mapVirt _ ih => exact inv_map_virtual ih

/-- List membership from `head?`. -/
theorem mem_of_head {α : Type} {l : List α} {a : α} (h : l.head? = some a) : a ∈ l := by
  cases l with
  | nil => cases h
  | cons x xs =>
    rw [List.head?] at h
    cases h
    exact List.mem_cons_self _ _

/-- Counter and page-list movement of a successful `free`. -/
theorem free_ok_state {m : MemoryManager} {pid : Nat} {r : MemoryRegion}
    (h : (m.free pid r).1 = Except.ok ()) :
    (m.free pid r).2.free_memory = m.free_memory + r.size ∧
    (m.free pid r).2.free_pages = m.free_pages ++ regionPages r := by
  unfold MemoryManager.free at h ⊢
  split at h
  · simp at h
  · rename_i regions hlk
    split at h
    · simp at h
    · rename_i regions' hrm
      refine ⟨?_, ?_⟩ <;> simp only [hlk, hrm]

/-- `allocate` succeeds whenever both resource guards pass. -/
theorem allocate_succeeds {m : MemoryManager} (pid : Nat) {size : Nat}
    (hpos : 0 < size) (hov : size + (PAGE_SIZE - 1) < 2 ^ 64)
    (hfm : alignUp size ≤ m.free_memory)
    (hlen : alignUp size / PAGE_SIZE ≤ m.free_pages.length) :
    allocOk (m.allocate pid size) = true := by
  unfold MemoryManager.allocate
  rw [if_neg (by omega : ¬size = 0), if_neg (Nat.not_le.mpr hov),
    alignedSize_eq hov, if_neg (Nat.not_lt.mpr hfm), if_neg (Nat.not_lt.mpr hlen)]
  cases hfp : m.free_pages with
  | nil =>
    exfalso
    have hnp := alignUp_pages_pos hpos
    rw [hfp] at hlen
    simp at hlen
    omega
  | cons a rest => rfl

/-! ### Claim theorems -/

/-- Claim C1: for every sequence of successful allocate, free, and free_all
calls starting from a newly constructed `MemoryManager`, `free_memory` plus
the sum of the sizes of all regions recorded in `allocated_regions` (over
all processes) equals `total_memory` after every call.  Proved for every
reachable state, which also covers failed calls and `map_virtual`. -/
theorem accounting_invariant (m : MemoryManager) (h : Reachable m) :
    m.free_memory + regionsSizeSum m.allocated_regions = m.total_memory :=
  (reachable_inv h).sum_eq

set_option maxRecDepth 100000 in
/-- Witness for C1: the invariant evaluated in the state reached after a
successful `allocate` on a freshly constructed 1 MB manager. -/
theorem accounting_invariant_witness :
    (allocState (MemoryManager.new 1) 1 4096).free_memory
        + regionsSizeSum (allocState (MemoryManager.new 1) 1 4096).allocated_regions
      = (allocState (MemoryManager.new 1) 1 4096).total_memory :=
  accounting_invariant _
    (@Reachable.alloc (MemoryManager.new 1) 1 4096 _ (Reachable.new 1) rfl)

set_option maxRecDepth 400000 in
/-- Claim C2 is falsified by the code: after the call sequence below on a
1 MB manager (256 pages), the free list is `[0, 8192, 12288, ...]` and a
request for two pages returns the region `{start := 0, size := 8192}`.
The claimed physical range `[0, 8192)` contains page `4096`, which at the
time of the call is owned by process 2 and is not in the free set; the two
pages actually removed from the free list are `0` and `8192`, which are not
contiguous.  This contradicts the contiguity policy of the spec and the
source comment "Allocate consecutive pages". -/
theorem allocate_noncontiguous_run :
    (runOps (MemoryManager.new 1)
        [Op.alloc 1 4096, Op.alloc 2 4096, Op.alloc 3 1040384,
         Op.free 1 ⟨0, 4096⟩, Op.free 3 ⟨8192, 1040384⟩]).map
      (fun m => ((m.allocate 4 8192).map (fun res => res.1),
                 lookupList 4096 m.used_pages,
                 decide (4096 ∈ m.free_pages)))
      = some (some (Except.ok ⟨0, 8192⟩), some 2, false) := by rfl

/-- Claim C3: whenever `allocate`, `free`, or `free_all` returns an error,
the manager state is exactly as it was before the call (strong error
atomicity). -/
theorem error_atomicity (m : MemoryManager) (pid size : Nat) (r : MemoryRegion)
    (res : Except String MemoryRegion × MemoryManager) (e₁ e₂ e₃ : String) :
    (m.allocate pid size = some res → res.1 = Except.error e₁ → res.2 = m) ∧
    ((m.free pid r).1 = Except.error e₂ → (m.free pid r).2 = m) ∧
    ((m.free_all pid).1 = Except.error e₃ → (m.free_all pid).2 = m) :=
  ⟨fun heq herr => allocate_error_state heq herr,
   fun herr => free_error_state herr,
   fun herr => free_all_error_state herr⟩

/-- Witness for C3: on a 0-byte manager, `allocate 1 1` fails with
`Out of memory`, and `free`/`free_all` fail with `Process not found`; all
three leave the state unchanged. -/
theorem error_atomicity_witness :
    ((Except.error "Out of memory", MemoryManager.new 0) :
        Except String MemoryRegion × MemoryManager).2 = MemoryManager.new 0 ∧
    ((MemoryManager.new 0).free 1 ⟨0, 4096⟩).2 = MemoryManager.new 0 ∧
    ((MemoryManager.new 0).free_all 1).2 = MemoryManager.new 0 := by
  have h := error_atomicity (MemoryManager.new 0) 1 1 ⟨0, 4096⟩
    (Except.error "Out of memory", MemoryManager.new 0)
    "Out of memory" "Process not found" "Process not found"
  exact ⟨h.1 rfl rfl, h.2.1 rfl, h.2.2 rfl⟩

/-- Claim C8: in every reachable state, `free_memory` equals `PAGE_SIZE`
times the number of entries in the free-page list, so the byte-counter
guard and the page-count guard of `allocate` always agree: for any page
count `n`, `free_memory < PAGE_SIZE * n` iff fewer than `n` free pages
exist. -/
theorem free_memory_counts_pages (m : MemoryManager) (h : Reachable m) :
    m.free_memory = PAGE_SIZE * m.free_pages.length ∧
    ∀ n : Nat, (m.free_memory < PAGE_SIZE * n ↔ m.free_pages.length < n) := by
  have he := (reachable_inv h).free_eq
  refine ⟨he, fun n => ?_⟩
  rw [he, PAGE_SIZE_eq]
  omega

/-- Witness for C8: the counter identity evaluated on a fresh 1 MB
manager (256 pages). -/
theorem free_memory_counts_pages_witness :
    (MemoryManager.new 1).free_memory = PAGE_SIZE * (MemoryManager.new 1).free_pages.length :=
  (free_memory_counts_pages _ (Reachable.new 1)).1

/-- Claim C4: for every reachable state, every process and every
`size > 0`, a successful `allocate` returns a region whose start is
page-aligned and whose size is the smallest multiple of the page size
that is at least `size`. -/
theorem allocate_page_rounding (m : MemoryManager) (h : Reachable m) (pid size : Nat)
    (hpos : 0 < size) (r : MemoryRegion)
    (heq : (m.allocate pid size).map Prod.fst = some (Except.ok r)) :
    r.start % PAGE_SIZE = 0 ∧ r.size % PAGE_SIZE = 0 ∧ size ≤ r.size ∧
    ∀ k, k % PAGE_SIZE = 0 → size ≤ k → r.size ≤ k := by
  cases hres : m.allocate pid size with
  | none => rw [hres] at heq; cases heq
  | some res =>
    rw [hres] at heq
    rw [Option.map_some'] at heq
    injection heq with heq1
    obtain ⟨_, _, hsz, _, _, hhd, _⟩ := allocate_ok_spec hres heq1
    refine ⟨(reachable_inv h).pages_aligned _ (mem_of_head hhd), ?_, ?_, ?_⟩
    · rw [hsz]; exact alignUp_mod size
    · rw [hsz]; exact le_alignUp size
    · intro k hk hsk
      rw [hsz]
      exact alignUp_le hk hsk

set_option maxRecDepth 100000 in
/-- Witness for C4: allocating 5000 bytes on a fresh 1 MB manager returns
the region `{start := 0, size := 8192}`; 8192 is page-aligned, at least
5000, and no larger than the page multiple 8192. -/
theorem allocate_page_rounding_witness :
    (MemoryRegion.mk 0 8192).start % PAGE_SIZE = 0 ∧
    (MemoryRegion.mk 0 8192).size % PAGE_SIZE = 0 ∧
    5000 ≤ (MemoryRegion.mk 0 8192).size ∧
    (MemoryRegion.mk 0 8192).size ≤ 8192 := by
  have h := allocate_page_rounding (MemoryManager.new 1) (Reachable.new 1) 7 5000
    (by decide) (MemoryRegion.mk 0 8192) rfl
  exact ⟨h.1, h.2.1, h.2.2.1, h.2.2.2 8192 (by decide) (by decide)⟩

/-- Claim C5: whenever `translate_address` returns normally (the `usize`
additions of the scan do not overflow), it returns exactly what the spec
describes: `some` of the physical address, with byte offset, of the first
mapping (in insertion order) of the process whose half-open range contains
the virtual address, and `none` when no mapping of the process contains
it.  `specTranslate` is the spec-side description via `List.find?`. -/
theorem translate_first_mapping (m : MemoryManager) (pid va : Nat) (result : Option Nat)
    (heq : m.translate_address pid va = some result) :
    result = specTranslate m pid va := by
  have hlist : ∀ (mappings : List VirtualMapping) (res : Option Nat),
      findTranslate va mappings = some res →
      res = (mappings.find? (fun mp =>
          decide (mp.virtual_addr ≤ va ∧ va < mp.virtual_addr + mp.size))).map
        (fun mp => mp.physical_addr + (va - mp.virtual_addr)) := by
    intro mappings
    induction mappings with
    | nil =>
      intro res h
      simp only [findTranslate] at h
      cases h
      rfl
    | cons mp rest ih =>
      intro res h
      simp only [findTranslate] at h
      by_cases h1 : va ≥ mp.virtual_addr
      · rw [if_pos h1] at h
        by_cases hov : 2 ^ 64 ≤ mp.virtual_addr + mp.size
        · rw [if_pos hov] at h
          cases h
        · rw [if_neg hov] at h
          by_cases h2 : va < mp.virtual_addr + mp.size
          · rw [if_pos h2] at h
            by_cases hov2 : 2 ^ 64 ≤ mp.physical_addr + (va - mp.virtual_addr)
            · rw [if_pos hov2] at h
              cases h
            · rw [if_neg hov2] at h
              cases h
              rw [List.find?_cons_of_pos _ (by simpa using And.intro h1 h2),
                Option.map_some']
          · rw [if_neg h2] at h
            rw [List.find?_cons_of_neg _
              (by simp only [decide_eq_true_eq]; exact fun hcon => h2 hcon.2)]
            exact ih res h
      · rw [if_neg h1] at h
        rw [List.find?_cons_of_neg _
          (by simp only [decide_eq_true_eq]; exact fun hcon => h1 hcon.1)]
        exact ih res h
  unfold MemoryManager.translate_address at heq
  unfold specTranslate
  cases hlk : lookupList pid m.virtual_mappings with
  | none =>
    rw [hlk] at heq
    cases heq
    rfl
  | some mappings =>
    rw [hlk] at heq
    exact hlist mappings result heq

/-- Witness for C5: after mapping virtual `0x10000` to physical `4096`
with size 4096 for process 1, a normal `translate_address` at `0x10000`
returns `some 4096`, which is exactly the spec-side first-match answer. -/
theorem translate_first_mapping_witness :
    (some 4096 : Option Nat)
      = specTranslate
          (((MemoryManager.new 0).map_virtual 1 65536 4096 4096
              MemoryProtection.read_write).2) 1 65536 :=
  translate_first_mapping _ 1 65536 (some 4096) rfl

set_option maxRecDepth 400000 in
/-- Claim C6 is falsified by the code: after `allocate(1, 4096)` and a
successful `free_all(1)`, process 1 has been seen by the manager and owns
no regions, yet a second `free_all(1)` fails with `Process not found`
(its ledger entry was removed by the first `free_all`). -/
theorem free_all_not_found_counterexample :
    (runOps (MemoryManager.new 1) [Op.alloc 1 4096, Op.freeAll 1]).map
        (fun m2 => ((m2.free_all 1).1, lookupList 1 m2.allocated_regions, ownsRegion m2 1))
      = some (Except.error "Process not found", none, false) := by rfl

/-- Claim C6 as amended: `free_all(process)` fails with `Process not
found` exactly when the process has no entry in `allocated_regions` (an
entry is created by the first successful `allocate` of the process and removed
only by `free_all`, so a previously seen process can lack one); when the
process has an entry that is an empty list, `free_all` succeeds and the
only state change is removing that entry and the virtual mappings of
the process. -/
theorem free_all_entry_characterization (m : MemoryManager) (pid : Nat) :
    ((m.free_all pid).1 = Except.error "Process not found"
        ↔ lookupList pid m.allocated_regions = none) ∧
    (lookupList pid m.allocated_regions = some [] →
      (m.free_all pid).1 = Except.ok () ∧
      (m.free_all pid).2 = { m with
        allocated_regions := eraseEntry pid m.allocated_regions
        virtual_mappings := eraseEntry pid m.virtual_mappings }) := by
  constructor
  · unfold MemoryManager.free_all
    cases h : lookupList pid m.allocated_regions with
    | none => simp
    | some regions => simp
  · intro h
    unfold MemoryManager.free_all
    rw [h]
    refine ⟨rfl, ?_⟩
    simp [sumSizes]

/-- Witness for C6 (amended): a manager whose ledger holds an empty entry
for process 1; `free_all 1` succeeds and only drops the entry and the
mappings of the process. -/
theorem free_all_entry_characterization_witness :
    (({ total_memory := 0, free_memory := 0, allocated_regions := [(1, [])],
        virtual_mappings := [], free_pages := [], used_pages := [] } :
          MemoryManager).free_all 1).1 = Except.ok () ∧
    (({ total_memory := 0, free_memory := 0, allocated_regions := [(1, [])],
        virtual_mappings := [], free_pages := [], used_pages := [] } :
          MemoryManager).free_all 1).2
      = { total_memory := 0, free_memory := 0,
          allocated_regions := eraseEntry 1 [(1, [])],
          virtual_mappings := eraseEntry 1 [], free_pages := [], used_pages := [] } :=
  (free_all_entry_characterization
    { total_memory := 0, free_memory := 0, allocated_regions := [(1, [])],
      virtual_mappings := [], free_pages := [], used_pages := [] } 1).2 rfl

set_option maxRecDepth 400000 in
/-- Claim C7 is falsified by the code: after `allocate(1, 4096)` and
`free(1, {0, 4096})`, process 1 owns no regions, yet `list_processes`
still returns `[1]` (freeing the last region leaves an empty ledger
entry behind). -/
theorem list_processes_counterexample :
    (runOps (MemoryManager.new 1) [Op.alloc 1 4096, Op.free 1 ⟨0, 4096⟩]).map
      (fun m => (m.list_processes, ownsRegion m 1)) = some ([1], false) := by rfl

/-- Claim C7 as amended: `list_processes` returns the key set of
`allocated_regions` — every process with a ledger entry, which includes
every process owning at least one region but may also include processes
owning zero regions (an entry is emptied, not removed, by `free`). -/
theorem list_processes_entry_characterization (m : MemoryManager) (pid : Nat) :
    (pid ∈ m.list_processes ↔ (lookupList pid m.allocated_regions).isSome) ∧
    (ownsRegion m pid = true → pid ∈ m.list_processes) := by
  have hkeys := mem_keys_iff_lookup pid m.allocated_regions
  constructor
  · exact hkeys
  · intro h
    rw [MemoryManager.list_processes, hkeys]
    unfold ownsRegion at h
    cases hl : lookupList pid m.allocated_regions with
    | none => rw [hl] at h; cases h
    | some regions => rfl

/-- Witness for C7 (amended): in a manager whose ledger maps process 1 to
one region, process 1 owns a region and appears in `list_processes`. -/
theorem list_processes_entry_characterization_witness :
    1 ∈ ({ total_memory := 0, free_memory := 0,
           allocated_regions := [(1, [MemoryRegion.mk 0 4096])],
           virtual_mappings := [], free_pages := [], used_pages := [] } :
             MemoryManager).list_processes :=
  (list_processes_entry_characterization
    { total_memory := 0, free_memory := 0,
      allocated_regions := [(1, [MemoryRegion.mk 0 4096])],
      virtual_mappings := [], free_pages := [], used_pages := [] } 1).2 rfl

/-- Claim C9: if `allocate(process, size)` succeeds returning region `r`
and `free(process, r)` then succeeds, a subsequent `allocate` of the same
size succeeds — releasing a region restores the full capacity needed to
satisfy the same request again. -/
theorem free_then_allocate_succeeds (m : MemoryManager) (pid size : Nat) (r : MemoryRegion)
    (h1 : (m.allocate pid size).map Prod.fst = some (Except.ok r))
    (h2 : ((allocState m pid size).free pid r).1 = Except.ok ()) :
    allocOk ((((allocState m pid size).free pid r).2).allocate pid size) = true := by
  cases hres : m.allocate pid size with
  | none => rw [hres] at h1; cases h1
  | some res =>
    rw [hres] at h1
    rw [Option.map_some'] at h1
    injection h1 with h1'
    obtain ⟨hpos, hov, hsz, hfm, hlen, hhd, hst⟩ := allocate_ok_spec hres h1'
    have hm1 : allocState m pid size = res.2 := by
      unfold allocState
      rw [hres]
    rw [hm1] at h2 ⊢
    obtain ⟨hfm2, hfp2⟩ := free_ok_state h2
    apply allocate_succeeds pid hpos hov
    · rw [hfm2, hst]
      dsimp only
      rw [← hsz]
      omega
    · rw [hfp2, hst]
      dsimp only
      rw [List.length_append, List.length_drop, regionPages_length, ← hsz]
      omega

set_option maxRecDepth 100000 in
/-- Witness for C9: allocate 4096 bytes on a fresh 1 MB manager, free the
returned region `{0, 4096}`, and allocate 4096 bytes again — the second
allocation succeeds. -/
theorem free_then_allocate_succeeds_witness :
    allocOk ((((allocState (MemoryManager.new 1) 1 4096).free 1 ⟨0, 4096⟩).2).allocate 1 4096)
      = true :=
  free_then_allocate_succeeds (MemoryManager.new 1) 1 4096 ⟨0, 4096⟩ rfl rfl

end HairrMM
